import Mathlib

/-!
Verification of the super-minimal AI agent runner (single-file JS source).

The development shallowly embeds the source: JavaScript runtime values are
the inductive `JVal`; `JSON.stringify` / `JSON.parse` are `jsonStringify` /
`jsonParse`; the agent's turn loop `Agent.run` is `MiniAgent.run`,
parameterized by a model-client oracle (the `_chat` HTTP call) and an MCP
gateway oracle, both of which are external I/O in the source.  The run
additionally returns an event trace (model calls, tool dispatches, tool
registrations, MCP connections) so that claims that count effects can be
stated; the trace and the returned transcript are instrumentation of the
embedding, not extra behaviour.
-/

namespace MiniAgent

/-- JavaScript runtime values as far as the agent manipulates them:
`undefined`, `null`, booleans, numbers (restricted to integers; the agent
never computes with fractional values), strings, arrays and plain objects
(association lists of own properties, in insertion order). -/
inductive JVal where
  | undefined : JVal
  | null : JVal
  | bool : Bool → JVal
  | num : Int → JVal
  | str : String → JVal
  | arr : List JVal → JVal
  | obj : List (String × JVal) → JVal

/-- JavaScript truthiness: `undefined`, `null`, `false`, `0` and `""` are
falsy, everything else (including empty arrays and objects) is truthy. -/
def jsTruthy : JVal → Bool
  | .undefined => false
  | .null => false
  | .bool b => b
  | .num n => n != 0
  | .str s => s != ""
  | .arr _ => true
  | .obj _ => true

/-- `typeof v === "object"`: true for objects, arrays and `null`. -/
def jsTypeofObject : JVal → Bool
  | .obj _ => true
  | .arr _ => true
  | .null => true
  | _ => false

/-- Property read `v[k]` (here only used for string keys on plain data):
on objects the last binding of the key wins, everything else (primitives,
arrays without such a key) yields `undefined`. -/
def jsGet (v : JVal) (k : String) : JVal :=
  match v with
  | .obj kvs =>
    match kvs.reverse.find? (fun p => p.1 = k) with
    | some p => p.2
    | none => .undefined
  | _ => .undefined

/-- The `k in v` operator restricted to the use in the source:
key membership among an object's own properties. -/
def jsHasProp (v : JVal) (k : String) : Bool :=
  match v with
  | .obj kvs => kvs.any (fun p => p.1 = k)
  | _ => false

/-- Decimal digit character. -/
def digitChar (n : Nat) : Char := Char.ofNat (48 + n)

/-- Decimal digits of a natural number, most significant first
(fuel-structured so that the kernel can evaluate it). -/
def natCharsAux : Nat → Nat → List Char
  | 0, _ => []
  | f + 1, n =>
    if n < 10 then [digitChar n]
    else natCharsAux f (n / 10) ++ [digitChar (n % 10)]

/-- Decimal representation of a natural number. -/
def natChars (n : Nat) : List Char := natCharsAux (n + 1) n

/-- Decimal representation of an integer, as printed by JavaScript for
integral numbers. -/
def intChars (n : Int) : List Char :=
  if n < 0 then '-' :: natChars n.natAbs else natChars n.toNat

/-- `String(v)`: JavaScript string conversion of the values `JVal` models.
Arrays convert via `Array.prototype.join(",")`, where `null` and
`undefined` elements contribute the empty string; plain objects print as
`[object Object]`. -/
def jsToString : JVal → String
  | .undefined => "undefined"
  | .null => "null"
  | .bool b => if b then "true" else "false"
  | .num n => ⟨intChars n⟩
  | .str s => s
  | .arr xs => joinComma xs
  | .obj _ => "[object Object]"
where
  /-- `Array.prototype.toString`, i.e. `join(",")`. -/
  joinComma : List JVal → String
  | [] => ""
  | [x] => elemStr x
  | x :: xs => elemStr x ++ "," ++ joinComma xs
  /-- One array element inside `join`: nullish elements become empty. -/
  elemStr : JVal → String
  | .undefined => ""
  | .null => ""
  | v => jsToString v

/-- Lower-case hexadecimal digit character. -/
def hexDigitChar (n : Nat) : Char :=
  if n < 10 then Char.ofNat (48 + n) else Char.ofNat (97 + (n - 10))

/-- `JSON.stringify` escaping of one string character: quote, backslash and
the short control escapes get a backslash form, other control characters a
`\u00XX` form, everything else stands for itself. -/
def escChar (c : Char) : List Char :=
  if c = '"' then ['\\', '"']
  else if c = '\\' then ['\\', '\\']
  else if c = '\n' then ['\\', 'n']
  else if c = '\r' then ['\\', 'r']
  else if c = '\t' then ['\\', 't']
  else if c.toNat = 8 then ['\\', 'b']
  else if c.toNat = 12 then ['\\', 'f']
  else if c.toNat < 32 then
    ['\\', 'u', '0', '0', hexDigitChar (c.toNat / 16), hexDigitChar (c.toNat % 16)]
  else [c]

def escChars : List Char → List Char
  | [] => []
  | c :: cs => escChar c ++ escChars cs

/-- A JSON string literal for the given character content. -/
def quoteChars (l : List Char) : List Char := '"' :: (escChars l ++ ['"'])

/-- Comma-separated concatenation of already-rendered pieces. -/
def sepComma : List (List Char) → List Char
  | [] => []
  | [m] => m
  | m :: ms => m ++ ',' :: sepComma ms

mutual

/-- `JSON.stringify` (character-list level): `none` models the JavaScript
result `undefined` (stringifying `undefined` itself); inside arrays
`undefined` renders as `null`, inside objects such members are skipped,
exactly as `JSON.stringify` does. -/
def jChars : JVal → Option (List Char)
  | .undefined => none
  | .null => some ("null".data)
  | .bool true => some ("true".data)
  | .bool false => some ("false".data)
  | .num n => some (intChars n)
  | .str s => some (quoteChars s.data)
  | .arr xs => some ('[' :: (sepComma (elemList xs) ++ [']']))
  | .obj kvs => some ('{' :: (sepComma (memberList kvs) ++ ['}']))

/-- Rendered array elements (`undefined` elements render as `null`). -/
def elemList : List JVal → List (List Char)
  | [] => []
  | x :: xs => (jChars x).getD ("null".data) :: elemList xs

/-- Rendered object members; members whose value stringifies to
`undefined` are dropped. -/
def memberList : List (String × JVal) → List (List Char)
  | [] => []
  | (k, v) :: rest =>
    match jChars v with
    | none => memberList rest
    | some sv => (quoteChars k.data ++ ':' :: sv) :: memberList rest

end

/-- `JSON.stringify` at the string level; `none` is JavaScript `undefined`. -/
def jsonStringify (v : JVal) : Option String := (jChars v).map fun l => ⟨l⟩

mutual

/-- Values in the image of JSON: no `undefined` anywhere.  For such values
serialization succeeds and deserialization inverts it. -/
def pureJson : JVal → Bool
  | .undefined => false
  | .arr xs => pureList xs
  | .obj kvs => pureObj kvs
  | _ => true

def pureList : List JVal → Bool
  | [] => true
  | x :: xs => pureJson x && pureList xs

def pureObj : List (String × JVal) → Bool
  | [] => true
  | (_, v) :: r => pureJson v && pureObj r

end

/-- JSON insignificant whitespace. -/
def isWs (c : Char) : Bool := c = ' ' || c = '\t' || c = '\n' || c = '\r'

def skipWs (cs : List Char) : List Char := cs.dropWhile isWs

/-- Value of a hexadecimal digit character. -/
def hexVal (c : Char) : Option Nat :=
  if '0' ≤ c ∧ c ≤ '9' then some (c.toNat - 48)
  else if 'a' ≤ c ∧ c ≤ 'f' then some (c.toNat - 87)
  else if 'A' ≤ c ∧ c ≤ 'F' then some (c.toNat - 55)
  else none

/-- Value of a four-hex-digit escape payload. -/
def hex4 (a b c d : Char) : Option Nat :=
  match hexVal a, hexVal b, hexVal c, hexVal d with
  | some ha, some hb, some hc, some hd => some (((ha * 16 + hb) * 16 + hc) * 16 + hd)
  | _, _, _, _ => none

/-- Decode one backslash escape (the input starts right after the
backslash): the decoded character and the remaining input. -/
def escDecode : List Char → Option (Char × List Char)
  | [] => none
  | e :: cs1 =>
    if e = '"' then some ('"', cs1)
    else if e = '\\' then some ('\\', cs1)
    else if e = '/' then some ('/', cs1)
    else if e = 'b' then some (Char.ofNat 8, cs1)
    else if e = 'f' then some (Char.ofNat 12, cs1)
    else if e = 'n' then some ('\n', cs1)
    else if e = 'r' then some ('\r', cs1)
    else if e = 't' then some ('\t', cs1)
    else if e = 'u' then
      match cs1 with
      | a :: b :: c2 :: d :: cs2 => (hex4 a b c2 d).map fun code => (Char.ofNat code, cs2)
      | _ => none
    else none

/-- Body of a JSON string literal, fuel-structured (one unit of fuel per
decoded character, so fuel exceeding the decoded length suffices). -/
def parseStrAux : Nat → List Char → Option (List Char × List Char)
  | 0, _ => none
  | _ + 1, [] => none
  | f + 1, c :: cs =>
    if c = '"' then some ([], cs)
    else if c = '\\' then
      match escDecode cs with
      | some (d, cs2) => (parseStrAux f cs2).map fun p => (d :: p.1, p.2)
      | none => none
    else if c.toNat < 32 then none
    else (parseStrAux f cs).map fun p => (c :: p.1, p.2)

/-- Body of a JSON string literal, after the opening quote: returns the
decoded characters and the input after the closing quote.  The fuel is one
more than the input length, which always suffices since every decoded
character consumes at least one input character. -/
def parseStrBody (cs : List Char) : Option (List Char × List Char) :=
  parseStrAux (cs.length + 1) cs

/-- Value of a decimal digit character. -/
def digitVal (c : Char) : Nat := c.toNat - 48

/-- A maximal nonempty run of decimal digits and its value; a leading
zero is only allowed for the numeral `0` itself, as in the JSON number
grammar enforced by `JSON.parse`. -/
def parseDigits (cs : List Char) : Option (Nat × List Char) :=
  match cs.takeWhile (fun c => c.isDigit) with
  | [] => none
  | d :: ds =>
    if d = '0' ∧ ds ≠ [] then none
    else
      some ((d :: ds).foldl (fun a c => a * 10 + digitVal c) 0,
        cs.dropWhile (fun c => c.isDigit))

/-- The JSON recursive-descent parser, structured by fuel so that the
kernel can evaluate it: component 1 parses a value, component 2.1 the tail
of an array after an opening bracket, component 2.2 the tail of an object
after an opening brace.  Numbers are integer numerals (optionally signed),
matching the integral restriction of `JVal.num`. -/
def parsersAux : Nat →
    (List Char → Option (JVal × List Char)) ×
    (List Char → Option (List JVal × List Char)) ×
    (List Char → Option (List (String × JVal) × List Char))
  | 0 => (fun _ => none, fun _ => none, fun _ => none)
  | fuel + 1 =>
    let pV := (parsersAux fuel).1
    let pI := (parsersAux fuel).2.1
    let pM := (parsersAux fuel).2.2
    ( fun cs =>
        match skipWs cs with
        | [] => none
        | c :: t =>
          if c = 'n' then
            match t with
            | 'u' :: 'l' :: 'l' :: r => some (.null, r)
            | _ => none
          else if c = 't' then
            match t with
            | 'r' :: 'u' :: 'e' :: r => some (.bool true, r)
            | _ => none
          else if c = 'f' then
            match t with
            | 'a' :: 'l' :: 's' :: 'e' :: r => some (.bool false, r)
            | _ => none
          else if c = '"' then (parseStrBody t).map fun p => (.str ⟨p.1⟩, p.2)
          else if c = '[' then (pI t).map fun p => (.arr p.1, p.2)
          else if c = '{' then (pM t).map fun p => (.obj p.1, p.2)
          else if c = '-' then (parseDigits t).map fun p => (.num (-(p.1 : Int)), p.2)
          else if c.isDigit then (parseDigits (c :: t)).map fun p => (.num (p.1 : Int), p.2)
          else none
    , fun cs =>
        match skipWs cs with
        | [] => none
        | c :: t =>
          if c = ']' then some ([], t)
          else
            match pV (c :: t) with
            | none => none
            | some (v, r1) =>
              match skipWs r1 with
              | [] => none
              | c2 :: t2 =>
                if c2 = ',' then
                  match pI t2 with
                  | none => none
                  | some (vs, r3) => some (v :: vs, r3)
                else if c2 = ']' then some ([v], t2)
                else none
    , fun cs =>
        match skipWs cs with
        | [] => none
        | c :: t =>
          if c = '}' then some ([], t)
          else if c = '"' then
            match parseStrBody t with
            | none => none
            | some (kl, r1) =>
              match skipWs r1 with
              | [] => none
              | c2 :: t2 =>
                if c2 = ':' then
                  match pV t2 with
                  | none => none
                  | some (v, r3) =>
                    match skipWs r3 with
                    | [] => none
                    | c3 :: t3 =>
                      if c3 = ',' then
                        match pM t3 with
                        | none => none
                        | some (ms, r5) => some ((⟨kl⟩, v) :: ms, r5)
                      else if c3 = '}' then some ([(⟨kl⟩, v)], t3)
                      else none
                else none
          else none )

def parseVal (fuel : Nat) (cs : List Char) : Option (JVal × List Char) :=
  (parsersAux fuel).1 cs

def parseItems (fuel : Nat) (cs : List Char) : Option (List JVal × List Char) :=
  (parsersAux fuel).2.1 cs

def parseMembers (fuel : Nat) (cs : List Char) :
    Option (List (String × JVal) × List Char) :=
  (parsersAux fuel).2.2 cs

/-- `JSON.parse` (on the grammar fragment the agent can produce): the whole
input, up to trailing whitespace, must be one value.  The fuel bound is
generous; sufficiency for every serialized value is proved below. -/
def jsonParse (s : String) : Option JVal :=
  match parseVal (3 * s.length + 3) s.data with
  | some (v, r) => if (skipWs r).isEmpty then some v else none
  | none => none

mutual

def jvSize : JVal → Nat
  | .arr xs => 1 + jlSize xs
  | .obj kvs => 1 + joSize kvs
  | _ => 1

def jlSize : List JVal → Nat
  | [] => 1
  | x :: xs => 1 + jvSize x + jlSize xs

def joSize : List (String × JVal) → Nat
  | [] => 1
  | (_, v) :: r => 2 + jvSize v + joSize r

end

/-- The continuation after a numeral must not begin with a digit (so the
maximal-munch digit run stops exactly at the numeral's end). -/
def noDigitHead : List Char → Prop
  | [] => True
  | c :: _ => c.isDigit = false

/-- One registered tool (source: `CustomTool` and the wrapped MCP tools):
name, description, JSON-Schema parameters, and the handler.  The handler
is modelled as a function from the parsed argument value to either a
result value or a thrown error's message string. -/
structure ToolDef where
  name : String
  description : String
  parameters : JVal
  handler : JVal → Except String JVal

/-- One tool advertised by an MCP server (`adapter.listTools()` entry);
its handler stands for `adapter.callTool(name, args)`. -/
structure MCPTool where
  name : String
  description : String
  inputSchema : JVal
  handler : JVal → Except String JVal

/-- MCP server configuration (auth headers and transport are external). -/
structure McpServer where
  name : String
  url : String

/-- The agent's configuration state after the constructor ran (fields of
`this` that the run loop reads; `baseURL`, `temperature`, `verbose` and
`onToken` only affect transport and logging and are not modelled). -/
structure Agent where
  system : String
  model : String
  apiKey : String
  maxTurns : Int
  maxToolCallsPerTurn : Int
  customTools : List ToolDef
  mcpServers : List McpServer

/-- One tool-invocation request inside an assistant message
(`tc.id`, `tc.function?.name`, `tc.function?.arguments`). -/
structure ToolCall where
  id : String
  fname : Option String
  fargs : Option String
deriving DecidableEq

/-- A transcript message.  Assistant messages from the model carry
`tool_calls` (`[]` models both an absent and an empty list, which the
source conflates through `msg.tool_calls || []` and the length test);
tool messages carry `tool_call_id`. -/
structure Msg where
  role : String
  content : JVal
  tool_calls : List ToolCall := []
  tool_call_id : Option String := none

/-- Instrumentation events recorded by the embedding: tool registration,
MCP connection, one model-completion request per turn, and one dispatch
per processed tool call. -/
inductive Event where
  | toolRegistered (name : String)
  | mcpConnected (server : String)
  | modelCall (turn : Nat)
  | dispatch (id : String) (fname : Option String)
deriving DecidableEq

/-- Result of a run, plus the final transcript and the event trace (the
source returns `\x7b text \x7d` or `\x7b text, messages \x7d`; `messages` and `trace`
here expose the loop's state for specification purposes). -/
structure RunOutcome where
  text : JVal
  messages : List Msg
  trace : List Event

/-- One entry of `_openAIToolsSpec()`: the `function` payload presented
to the model (the constant outer wrapper `type: "function"` is omitted). -/
structure ToolSpec where
  name : String
  description : String
  parameters : JVal

/-- The tool registry `this.toolRegistry`: a string-keyed JS object, i.e.
an insertion-ordered association list with unique keys where re-assignment
overwrites in place. -/
abbrev Registry : Type := List (String × ToolDef)

/-- Model client oracle: stands for `this._chat(messages, tools)`; an
`Except.error` is a thrown transport/HTTP error, `Option.none` a response
without a message in the first choice. -/
abbrev Oracle : Type := List ToolSpec → List Msg → Except String (Option Msg)

/-- MCP gateway oracle: stands for `adapter.connect()` followed by
`adapter.listTools()` for one configured server. -/
abbrev McpOracle : Type := McpServer → Except String (List MCPTool)

/-- The open object schema used as a fallback for missing parameter
schemas (source lines 76 and 99). -/
def defaultSchema : JVal :=
  .obj [("type", .str "object"), ("properties", .obj []),
    ("additionalProperties", .bool true)]

/-- Assignment `this.toolRegistry[tool.name] = tool`: overwrite in place
if the key exists (JS objects keep the original insertion position),
otherwise append. -/
def insertTool (reg : Registry) (t : ToolDef) : Registry :=
  if (reg.any fun p => p.1 = t.name) then
    reg.map fun p => if p.1 = t.name then (t.name, t) else p
  else reg ++ [(t.name, t)]

/-- `_registerTool`: throws when the name is falsy (the empty string),
otherwise inserts. -/
def registerTool (reg : Registry) (t : ToolDef) : Except String Registry :=
  if t.name = "" then .error "Tool must have a name"
  else .ok (insertTool reg t)

/-- Registration loop over a list of tools, recording one event each. -/
def registerAll : Registry → List Event → List ToolDef →
    Except String (Registry × List Event)
  | reg, tr, [] => .ok (reg, tr)
  | reg, tr, t :: ts =>
    match registerTool reg t with
    | .error e => .error e
    | .ok reg2 => registerAll reg2 (tr ++ [.toolRegistered t.name]) ts

/-- Wrapping of one discovered MCP tool (source lines 73-78): composite
`server:tool` name, defaulted description and schema, delegating handler. -/
def wrapMcpTool (srv : McpServer) (mt : MCPTool) : ToolDef :=
  { name := srv.name ++ ":" ++ mt.name
  , description :=
      if mt.description = "" then "MCP tool " ++ mt.name ++ " from " ++ srv.name
      else mt.description
  , parameters := if jsTruthy mt.inputSchema then mt.inputSchema else defaultSchema
  , handler := mt.handler }

/-- Connection/discovery loop over the configured MCP servers: any
gateway failure aborts initialization. -/
def connectAll (mcp : McpOracle) : Registry → List Event → List McpServer →
    Except String (Registry × List Event)
  | reg, tr, [] => .ok (reg, tr)
  | reg, tr, srv :: rest =>
    match mcp srv with
    | .error e => .error e
    | .ok mts =>
      match registerAll reg (tr ++ [.mcpConnected srv.name]) (mts.map (wrapMcpTool srv)) with
      | .error e => .error e
      | .ok (reg2, tr2) => connectAll mcp reg2 tr2 rest

/-- `init()`: register the custom tools, then connect every MCP server
and register its wrapped tools. -/
def initAgent (a : Agent) (mcp : McpOracle) : Except String (Registry × List Event) :=
  match registerAll [] [] a.customTools with
  | .error e => .error e
  | .ok (reg1, tr1) => connectAll mcp reg1 tr1 a.mcpServers

/-- `_openAIToolsSpec()`: name truncated to 64 characters, description to
1024, parameters defaulted to the open object schema. -/
def openAIToolsSpec (reg : Registry) : List ToolSpec :=
  reg.map fun p =>
    { name := p.2.name.take 64
    , description := p.2.description.take 1024
    , parameters := if jsTruthy p.2.parameters then p.2.parameters else defaultSchema }

/-- JS `a || b` on values. -/
def jsOr (a b : JVal) : JVal := if jsTruthy a then a else b

/-- JS `a ?? b` on values. -/
def jsNullish (a b : JVal) : JVal :=
  match a with
  | .null => b
  | .undefined => b
  | _ => a

/-- One mapped part in the array branch of `coerceText`
(`typeof part === "string" ? part : part?.text || ""`). -/
def mapPart (p : JVal) : JVal :=
  match p with
  | .str s => .str s
  | _ => jsOr (jsGet p "text") (.str "")

/-- `coerceText(content)` (source lines 195-200): strings pass through;
arrays map each part to its string or its `text` property and `join("")`
the results; objects with a `text` key yield that property; anything else
is `String(content ?? "")`. -/
def coerceText : JVal → JVal
  | .str s => .str s
  | .arr parts => .str (String.join ((parts.map mapPart).map jsToString.elemStr))
  | c =>
    if jsTruthy c && jsTypeofObject c && jsHasProp c "text" then jsGet c "text"
    else .str (jsToString (jsNullish c (.str "")))

/-- `toolName` as used for lookup and in messages: a missing
`tc.function?.name` behaves as the string key and text `"undefined"`. -/
def tcName (tc : ToolCall) : String :=
  match tc.fname with
  | some s => s
  | none => "undefined"

/-- Argument parsing (source lines 136-138): a falsy `arguments` string
yields the empty object; a parse failure yields the sentinel object
binding `_raw` to the raw string. -/
def tcArgs (tc : ToolCall) : JVal :=
  match tc.fargs with
  | none => .obj []
  | some s =>
    if s = "" then .obj []
    else
      match jsonParse s with
      | some v => v
      | none => .obj [("_raw", .str s)]

/-- Outcome of the property read `this.toolRegistry[toolName]`: an own
entry of the registry, a truthy value inherited from `Object.prototype`
(the registry is a plain object literal), or `undefined`. -/
inductive Resolved where
  | tool (t : ToolDef)
  | inherited
  | missing

/-- The enumerable-or-not members every plain object inherits from
`Object.prototype`; reading any of these names on `\x7b\x7d` yields a
function, which is truthy, so the `if (!tool)` guard does not fire. -/
def objectProtoProps : List String :=
  ["constructor", "hasOwnProperty", "isPrototypeOf", "propertyIsEnumerable",
   "toLocaleString", "toString", "valueOf", "__proto__",
   "__defineGetter__", "__defineSetter__", "__lookupGetter__", "__lookupSetter__"]

/-- The V8 message of the TypeError thrown by `tool.handler(args, ...)`
when `tool` is an inherited `Object.prototype` member rather than a
registered tool (its `handler` property is `undefined`). -/
def protoCallError : String := "tool.handler is not a function"

/-- `this.toolRegistry[toolName]` (own keys unique by construction): an
own entry wins; otherwise the prototype chain of the plain object
`\x7b\x7d` is consulted, so an `Object.prototype` member name reads as a
truthy function; any other name reads as `undefined`. -/
def resolveTool (reg : Registry) (n : String) : Resolved :=
  match reg.find? fun p => p.1 = n with
  | some p => .tool p.2
  | none => if n ∈ objectProtoProps then .inherited else .missing

/-- `typeof result === "string" ? result : JSON.stringify(result)`: a
string result is used verbatim, any other result is JSON-serialized
(`undefined` when the serialization is). -/
def serializeResult (r : JVal) : JVal :=
  match r with
  | .str s => .str s
  | r =>
    match jsonStringify r with
    | some t => .str t
    | none => .undefined

/-- Content of the appended tool message (source line 156): the ternary
`error ? ... : ...` tests the TRUTHINESS of the caught message, so an
error whose message is the empty string falls through to the success
branch, where `result` is still `undefined`. -/
def toolResultContent : Except String JVal → JVal
  | .error e => if e = "" then serializeResult .undefined
      else .str ("__error__: " ++ e)
  | .ok r => serializeResult r

/-- The single `tool` message appended for one processed tool call
(source lines 134-157): not-found report, error report (a TypeError when
the lookup hit an inherited `Object.prototype` member), or serialized
result, always correlated via `tool_call_id`. -/
def execMsg (reg : Registry) (tc : ToolCall) : Msg :=
  match resolveTool reg (tcName tc) with
  | .missing =>
    { role := "tool", content := .str ("Tool " ++ tcName tc ++ " not found.")
    , tool_call_id := some tc.id }
  | .inherited =>
    { role := "tool", content := .str ("__error__: " ++ protoCallError)
    , tool_call_id := some tc.id }
  | .tool t =>
    { role := "tool", content := toolResultContent (t.handler (tcArgs tc))
    , tool_call_id := some tc.id }

/-- The dispatch event recorded for one processed tool call. -/
def mkDispatch (tc : ToolCall) : Event := .dispatch tc.id tc.fname

/-- The `for (const tc of toExecute)` loop: appends one tool message and
one dispatch event per call, in order. -/
def processCalls (reg : Registry) : List ToolCall → List Msg → List Event →
    List Msg × List Event
  | [], ms, tr => (ms, tr)
  | tc :: rest, ms, tr =>
    processCalls reg rest (ms ++ [execMsg reg tc]) (tr ++ [mkDispatch tc])

/-- `Array.prototype.slice(0, k)` with JavaScript's negative-index
semantics (a negative end counts from the end of the array). -/
def jsSlice0 (k : Int) (l : List α) : List α :=
  if 0 ≤ k then l.take k.toNat else l.take ((l.length : Int) + k).toNat

/-- The fixed guardrail sentinel returned when `maxTurns` is exhausted. -/
def guardrailText : String := "[Stopped: maxTurns reached without a final answer]"

/-- The `while (turn < this.maxTurns)` loop (source lines 119-169), with
the remaining number of iterations as fuel and the 1-based turn number for
the trace: ask the model, push its message, either finish with the coerced
text (no tool calls) or process the first `maxToolCallsPerTurn` calls and
continue; when the fuel is exhausted, return the guardrail sentinel. -/
def loopRun (a : Agent) (oracle : Oracle) (reg : Registry) :
    Nat → Nat → List Msg → List Event → Except String RunOutcome
  | 0, _, ms, tr => .ok { text := .str guardrailText, messages := ms, trace := tr }
  | fuel + 1, turnNo, ms, tr =>
    match oracle (openAIToolsSpec reg) ms with
    | .error e => .error e
    | .ok none => .error "No message from model"
    | .ok (some msg) =>
      match msg.tool_calls with
      | [] =>
        .ok { text := coerceText msg.content, messages := ms ++ [msg]
            , trace := tr ++ [.modelCall turnNo] }
      | tc :: tcs =>
        let toExec := jsSlice0 a.maxToolCallsPerTurn (tc :: tcs)
        let res := processCalls reg toExec (ms ++ [msg]) (tr ++ [.modelCall turnNo])
        loopRun a oracle reg fuel (turnNo + 1) res.1 res.2

/-- Transcript seeding (source lines 112-114): optional system message,
then the user message. -/
def seedMsgs (a : Agent) (user : String) : List Msg :=
  (if a.system = "" then [] else [{ role := "system", content := .str a.system }]) ++
    [{ role := "user", content := .str user }]

/-- `Agent.run(user)` (source lines 106-170): validate the credential and
model (falsy, i.e. empty, values throw), run `init()`, seed the
transcript, and enter the turn loop, which runs `max(maxTurns, 0)` times
unless a final answer terminates it earlier. -/
def Agent.run (a : Agent) (mcp : McpOracle) (oracle : Oracle) (user : String) :
    Except String RunOutcome :=
  if a.apiKey = "" then .error "Missing apiKey"
  else if a.model = "" then .error "Missing model"
  else
    match initAgent a mcp with
    | .error e => .error e
    | .ok (reg, tr0) => loopRun a oracle reg a.maxTurns.toNat 1 (seedMsgs a user) tr0

/-- Number of model-completion requests recorded in a trace. -/
def countModelCalls (tr : List Event) : Nat :=
  (tr.filter fun e => match e with | .modelCall _ => true | _ => false).length

/-- Number of tool-call dispatches recorded in a trace. -/
def countDispatches (tr : List Event) : Nat :=
  (tr.filter fun e => match e with | .dispatch _ _ => true | _ => false).length

/-- Modelled from the claim (C6): a part's text is the part itself for a
plain-string part, and otherwise its `text` property when that is a usable
(truthy) value, contributing its string form; parts without usable text
contribute the empty string. -/
def claimPartText (p : JVal) : String :=
  match p with
  | .str s => s
  | _ => if jsTruthy (jsGet p "text") then jsToString (jsGet p "text") else ""

/-- Modelled from the claim (C6): the stringification of whatever value is
present, where a missing value (nullish content) stringifies to nothing. -/
def claimStringifyPresent (v : JVal) : String :=
  match v with
  | .null => ""
  | .undefined => ""
  | v => jsToString v

/-- Modelled from the claim (C6), case by case in the claim's order: a
plain string is used as-is; a sequence of parts concatenates each part's
text; a single object with a text field yields that field; otherwise the
stringification of whatever value is present. -/
def claimCoerceText : JVal → JVal
  | .str s => .str s
  | .arr parts => .str (parts.foldr (fun p acc => claimPartText p ++ acc) "")
  | .obj kvs =>
    if kvs.any (fun p => p.1 = "text") then jsGet (.obj kvs) "text"
    else .str (claimStringifyPresent (.obj kvs))
  | c => .str (claimStringifyPresent c)

def mcpNone : McpOracle := fun _ => .ok []

def msgHello : Msg := { role := "assistant", content := .str "Hello!" }

def orHello : Oracle := fun _ _ => .ok (some msgHello)

def agentNoTurns : Agent :=
  { system := "", model := "m", apiKey := "k", maxTurns := 0
  , maxToolCallsPerTurn := 4, customTools := [], mcpServers := [] }

def agentOneTurn : Agent := { agentNoTurns with maxTurns := 1 }

def agentThreeTurns : Agent := { agentNoTurns with maxTurns := 3 }

def agentOneCall : Agent := { agentNoTurns with maxTurns := 2, maxToolCallsPerTurn := 1 }

def tcMissing : ToolCall := ⟨"call1", some "missing", some "[1]"⟩

def msgToolCall : Msg := { role := "assistant", content := .null, tool_calls := [tcMissing] }

def orToolCall : Oracle := fun _ _ => .ok (some msgToolCall)

def msgTwoCalls : Msg :=
  { role := "assistant", content := .null
  , tool_calls := [⟨"cA", some "missing", none⟩, ⟨"cB", some "missing", none⟩] }

def echoTool : ToolDef :=
  { name := "echo", description := "", parameters := .undefined, handler := fun args => .ok args }

def boomTool : ToolDef :=
  { name := "boom", description := "", parameters := .undefined, handler := fun _ => .error "kaboom" }

def objTool : ToolDef :=
  { name := "mk", description := "", parameters := .undefined
  , handler := fun _ => .ok (.obj [("a", .num 1)]) }

def regTools : Registry := [("echo", echoTool), ("boom", boomTool), ("mk", objTool)]

def tcBoom : ToolCall := ⟨"id4", some "boom", none⟩

def tcNone2 : ToolCall := ⟨"id5", some "nope", none⟩

def tcMk : ToolCall := ⟨"id8", some "mk", none⟩

def outHello : RunOutcome :=
  { text := .str "Hello!"
  , messages := [{ role := "user", content := .str "hi" }, msgHello]
  , trace := [Event.modelCall 1] }

def mcpTool1 : MCPTool :=
  { name := "t1", description := "", inputSchema := .undefined, handler := fun a => .ok a }

def mcpOneSrv : McpOracle := fun _ => .ok [mcpTool1]

def agentInitMcp : Agent :=
  { system := "", model := "m", apiKey := "k", maxTurns := 0
  , maxToolCallsPerTurn := 4, customTools := [echoTool], mcpServers := [⟨"srv", "ws"⟩] }

def regInit : Registry :=
  [("echo", echoTool), ("srv:t1", wrapMcpTool ⟨"srv", "ws"⟩ mcpTool1)]

def trInit : List Event :=
  [Event.toolRegistered "echo", Event.mcpConnected "srv", Event.toolRegistered "srv:t1"]

def emptyBoomTool : ToolDef :=
  { name := "eboom", description := "", parameters := .undefined, handler := fun _ => .error "" }

def regEmptyBoom : Registry := [("eboom", emptyBoomTool)]

def tcEBoom : ToolCall := ⟨"idE", some "eboom", none⟩

def tcProto : ToolCall := ⟨"idP", some "toString", none⟩

theorem natCharsAux_fuel_irrel : ∀ f g n, n < f → n < g →
    natCharsAux f n = natCharsAux g n := by
  intro f
  induction f with
  | zero => intro g n h; omega
  | succ f ih =>
    intro g n hf hg
    cases g with
    | zero => omega
    | succ g =>
      simp only [natCharsAux]
      by_cases h : n < 10
      · simp [h]
      · have hd : n / 10 < n := Nat.div_lt_self (by omega) (by omega)
        simp only [h, if_false]
        rw [ih g (n / 10) (by omega) (by omega)]

theorem jvSize_pos (v : JVal) : 1 ≤ jvSize v := by
  cases v <;> simp only [jvSize] <;> omega

theorem jlSize_pos (xs : List JVal) : 1 ≤ jlSize xs := by
  cases xs <;> simp only [jlSize] <;> omega

theorem joSize_pos (kvs : List (String × JVal)) : 1 ≤ joSize kvs := by
  cases kvs with
  | nil => simp only [joSize]; omega
  | cons kv r => obtain ⟨k, v⟩ := kv; simp only [joSize]; omega

theorem digitChar_isDigit {d : Nat} (h : d < 10) : (digitChar d).isDigit = true := by
  interval_cases d <;> decide

theorem digitVal_digitChar {d : Nat} (h : d < 10) : digitVal (digitChar d) = d := by
  interval_cases d <;> decide

theorem hexVal_hexDigitChar {d : Nat} (h : d < 16) : hexVal (hexDigitChar d) = some d := by
  interval_cases d <;> decide

theorem isDigit_toNat {c : Char} (h : c.isDigit = true) : 48 ≤ c.toNat ∧ c.toNat ≤ 57 := by
  simp [Char.isDigit, Char.le_def] at h
  exact h

theorem digit_not_special {c : Char} (h : c.isDigit = true) :
    isWs c = false ∧ c ≠ 'n' ∧ c ≠ 't' ∧ c ≠ 'f' ∧ c ≠ '"' ∧ c ≠ '[' ∧ c ≠ '{' ∧
      c ≠ '-' ∧ c ≠ ']' ∧ c ≠ '}' ∧ c ≠ ',' ∧ c ≠ ':' := by
  have hb := isDigit_toNat h
  have hsp : c ≠ ' ' := by rintro rfl; revert hb; decide
  have htb : c ≠ '\t' := by rintro rfl; revert hb; decide
  have hnl : c ≠ '\n' := by rintro rfl; revert hb; decide
  have hcr : c ≠ '\r' := by rintro rfl; revert hb; decide
  refine ⟨by simp [isWs, hsp, htb, hnl, hcr], ?_, ?_, ?_, ?_, ?_, ?_, ?_, ?_, ?_, ?_, ?_⟩ <;>
    (rintro rfl; revert hb; decide)

theorem natCharsAux_digits : ∀ f n c, c ∈ natCharsAux f n → c.isDigit = true := by
  intro f
  induction f with
  | zero => intro n c h; simp [natCharsAux] at h
  | succ f ih =>
    intro n c h
    simp only [natCharsAux] at h
    by_cases h10 : n < 10
    · simp only [h10, if_true, List.mem_singleton] at h
      subst h; exact digitChar_isDigit h10
    · simp only [h10, if_false, List.mem_append, List.mem_singleton] at h
      rcases h with h | h
      · exact ih _ _ h
      · subst h; exact digitChar_isDigit (Nat.mod_lt _ (by omega))

theorem natCharsAux_ne_nil (f n : Nat) (hf : 0 < f) : natCharsAux f n ≠ [] := by
  cases f with
  | zero => omega
  | succ f =>
    simp only [natCharsAux]
    by_cases h10 : n < 10
    · simp [h10]
    · simp [h10]

theorem natChars_digits (n : Nat) : ∀ c ∈ natChars n, c.isDigit = true :=
  fun c h => natCharsAux_digits _ _ c h

theorem natChars_ne_nil (n : Nat) : natChars n ≠ [] :=
  natCharsAux_ne_nil _ _ (by omega)

theorem natCharsAux_foldl : ∀ f n a, n < f →
    (natCharsAux f n).foldl (fun x c => x * 10 + digitVal c) a
      = a * 10 ^ (natCharsAux f n).length + n := by
  intro f
  induction f with
  | zero => intro n a h; omega
  | succ f ih =>
    intro n a h
    simp only [natCharsAux]
    by_cases h10 : n < 10
    · simp [h10, digitVal_digitChar h10]
    · have hd : n / 10 < n := Nat.div_lt_self (by omega) (by omega)
      rw [if_neg h10, List.foldl_append, ih (n / 10) a (by omega)]
      simp only [List.foldl_cons, List.foldl_nil, digitVal_digitChar (Nat.mod_lt n (by omega)),
        List.length_append, List.length_singleton]
      have hdm : n / 10 * 10 + n % 10 = n := by omega
      calc (a * 10 ^ (natCharsAux f (n / 10)).length + n / 10) * 10 + n % 10
          = a * (10 ^ (natCharsAux f (n / 10)).length * 10) + (n / 10 * 10 + n % 10) := by ring
        _ = a * 10 ^ ((natCharsAux f (n / 10)).length + 1) + n := by rw [hdm, pow_succ]

theorem natChars_val (n : Nat) :
    (natChars n).foldl (fun x c => x * 10 + digitVal c) 0 = n := by
  have h := natCharsAux_foldl (n + 1) n 0 (by omega)
  simpa using h

theorem takeWhile_digits_append {l rest : List Char}
    (hl : ∀ c ∈ l, c.isDigit = true) (hr : noDigitHead rest) :
    (l ++ rest).takeWhile (fun c => c.isDigit) = l ∧
      (l ++ rest).dropWhile (fun c => c.isDigit) = rest := by
  induction l with
  | nil =>
    simp only [List.nil_append]
    cases rest with
    | nil => simp
    | cons c t =>
      simp only [noDigitHead] at hr
      simp [List.takeWhile_cons, List.dropWhile_cons, hr]
  | cons c t ih =>
    have hc := hl c (by simp)
    have iht := ih (fun x hx => hl x (by simp [hx]))
    simp [List.takeWhile_cons, List.dropWhile_cons, hc, iht.1, iht.2]

theorem digitChar_ne_zero {d : Nat} (h1 : 1 ≤ d) (h2 : d < 10) : digitChar d ≠ '0' := by
  interval_cases d <;> decide

theorem natCharsAux_head_ne_zero : ∀ f n, 0 < n → n < f →
    ∀ l, natCharsAux f n ≠ '0' :: l := by
  intro f
  induction f with
  | zero => intro n hn hf l; omega
  | succ f ih =>
    intro n hn hf l
    simp only [natCharsAux]
    by_cases h10 : n < 10
    · simp only [h10, if_true]
      intro hcontra
      have hhead : digitChar n = '0' := by
        injection hcontra with h1 h2
      exact digitChar_ne_zero hn h10 hhead
    · simp only [h10, if_false]
      have hdf : n / 10 < f := by
        have : n / 10 < n := Nat.div_lt_self (by omega) (by omega)
        omega
      cases hcons : natCharsAux f (n / 10) with
      | nil => exact absurd hcons (natCharsAux_ne_nil f (n / 10) (by omega))
      | cons b bs =>
        intro hcontra
        simp only [List.cons_append] at hcontra
        have hb : b = '0' := by injection hcontra with h1 h2
        subst hb
        exact ih (n / 10) (Nat.div_pos (by omega) (by omega)) hdf bs hcons

theorem natChars_no_leading_zero {n : Nat} {a : Char} {l : List Char}
    (hne : natChars n = a :: l) : ¬(a = '0' ∧ l ≠ []) := by
  rintro ⟨ha, hl⟩
  subst ha
  rcases Nat.eq_zero_or_pos n with h0 | hpos
  · subst h0
    have : ([ '0' ] : List Char) = '0' :: l := hne
    have : l = [] := by injection this with h1 h2; exact h2.symm
    exact hl this
  · exact natCharsAux_head_ne_zero (n + 1) n hpos (by omega) l hne

theorem parseDigits_natChars (n : Nat) {rest : List Char} (hr : noDigitHead rest) :
    parseDigits (natChars n ++ rest) = some (n, rest) := by
  obtain ⟨ht, hd⟩ := takeWhile_digits_append (natChars_digits n) hr
  cases hne : natChars n with
  | nil => exact absurd hne (natChars_ne_nil n)
  | cons a l =>
    rw [hne] at ht hd
    simp only [parseDigits, ht, hd]
    rw [if_neg (natChars_no_leading_zero hne)]
    have hv := natChars_val n
    rw [hne] at hv
    rw [hv]

theorem hex4_00 {t : Nat} (h : t < 32) :
    hex4 '0' '0' (hexDigitChar (t / 16)) (hexDigitChar (t % 16)) = some t := by
  have h16a : t / 16 < 16 := by omega
  have h16b : t % 16 < 16 := by omega
  simp only [hex4, hexVal_hexDigitChar h16a, hexVal_hexDigitChar h16b,
    show hexVal '0' = some 0 from rfl, Option.some.injEq]
  omega

theorem parseStrAux_escChar (f : Nat) (c : Char) (rest : List Char) :
    parseStrAux (f + 1) (escChar c ++ rest) =
      (parseStrAux f rest).map fun p => (c :: p.1, p.2) := by
  by_cases h1 : c = '"'
  · subst h1; simp [escChar, parseStrAux, escDecode]
  by_cases h2 : c = '\\'
  · subst h2; simp [escChar, parseStrAux, escDecode]
  by_cases h3 : c = '\n'
  · subst h3; simp [escChar, parseStrAux, escDecode]
  by_cases h4 : c = '\r'
  · subst h4; simp [escChar, parseStrAux, escDecode]
  by_cases h5 : c = '\t'
  · subst h5; simp [escChar, parseStrAux, escDecode]
  by_cases h6 : c.toNat = 8
  · have hc : c = Char.ofNat 8 := by rw [← h6, Char.ofNat_toNat]
    subst hc; simp [escChar, parseStrAux, escDecode]
  by_cases h7 : c.toNat = 12
  · have hc : c = Char.ofNat 12 := by rw [← h7, Char.ofNat_toNat]
    subst hc; simp [escChar, parseStrAux, escDecode]
  by_cases h8 : c.toNat < 32
  · simp only [escChar, h1, h2, h3, h4, h5, h6, h7, h8, if_false, if_true, List.cons_append,
      List.nil_append]
    simp only [parseStrAux, escDecode]
    simp [hex4_00 h8, Char.ofNat_toNat]
  · simp only [escChar, h1, h2, h3, h4, h5, h6, h7, h8, if_false, List.cons_append,
      List.nil_append]
    simp [parseStrAux, h1, h2, h8]

theorem parseStrAux_escChars (l : List Char) : ∀ f rest, l.length < f →
    parseStrAux f (escChars l ++ '"' :: rest) = some (l, rest) := by
  induction l with
  | nil =>
    intro f rest hf
    cases f with
    | zero => omega
    | succ f => simp [escChars, parseStrAux]
  | cons c t ih =>
    intro f rest hf
    cases f with
    | zero => omega
    | succ f =>
      simp only [escChars, List.append_assoc]
      rw [parseStrAux_escChar f c (escChars t ++ '"' :: rest),
        ih f rest (by simp at hf; omega)]
      rfl

theorem escChar_length_pos (c : Char) : 1 ≤ (escChar c).length := by
  simp only [escChar]
  split_ifs <;> simp

theorem escChars_length (l : List Char) : l.length ≤ (escChars l).length := by
  induction l with
  | nil => simp [escChars]
  | cons c t ih =>
    have := escChar_length_pos c
    simp only [escChars, List.length_append, List.length_cons]
    omega

theorem parseStrBody_escChars (l rest : List Char) :
    parseStrBody (escChars l ++ '"' :: rest) = some (l, rest) := by
  have hlen := escChars_length l
  apply parseStrAux_escChars
  simp only [List.length_append, List.length_cons]
  omega

theorem skipWs_cons {c : Char} (h : isWs c = false) (t : List Char) :
    skipWs (c :: t) = c :: t := by
  simp [skipWs, List.dropWhile_cons, h]

theorem noDigitHead_cons {c : Char} (rest : List Char) (h : c.isDigit = false) :
    noDigitHead (c :: rest) := h

theorem pure_jChars_some {v : JVal} (hp : pureJson v = true) : ∃ l, jChars v = some l := by
  cases v with
  | undefined => simp [pureJson] at hp
  | null => exact ⟨_, rfl⟩
  | bool b => cases b <;> exact ⟨_, rfl⟩
  | num n => exact ⟨_, rfl⟩
  | str s => exact ⟨_, rfl⟩
  | arr xs => exact ⟨_, rfl⟩
  | obj kvs => exact ⟨_, rfl⟩

theorem natChars_head (n : Nat) : ∃ d ds, natChars n = d :: ds ∧ d.isDigit = true := by
  cases hne : natChars n with
  | nil => exact absurd hne (natChars_ne_nil n)
  | cons d ds =>
    refine ⟨d, ds, rfl, ?_⟩
    exact natChars_digits n d (by rw [hne]; simp)

theorem jChars_head {v : JVal} {l : List Char} (hp : pureJson v = true)
    (h : jChars v = some l) :
    ∃ c t, l = c :: t ∧ isWs c = false ∧ c ≠ ']' ∧ c ≠ '}' ∧ c ≠ ',' := by
  cases v with
  | undefined => simp [pureJson] at hp
  | null =>
    simp only [jChars, Option.some.injEq] at h
    exact ⟨'n', _, h.symm, by decide, by decide, by decide, by decide⟩
  | bool b =>
    cases b <;> simp only [jChars, Option.some.injEq] at h
    · exact ⟨'f', _, h.symm, by decide, by decide, by decide, by decide⟩
    · exact ⟨'t', _, h.symm, by decide, by decide, by decide, by decide⟩
  | num n =>
    simp only [jChars, Option.some.injEq] at h
    subst h
    by_cases hn : n < 0
    · simp only [intChars, hn, if_true]
      exact ⟨'-', _, rfl, by decide, by decide, by decide, by decide⟩
    · simp only [intChars, hn, if_false]
      obtain ⟨d, ds, hds, hdd⟩ := natChars_head n.toNat
      obtain ⟨hws, -, -, -, -, -, -, -, h1, h2, h3, -⟩ := digit_not_special hdd
      exact ⟨d, ds, hds, hws, h1, h2, h3⟩
  | str s =>
    simp only [jChars, Option.some.injEq] at h
    exact ⟨'"', _, h.symm, by decide, by decide, by decide, by decide⟩
  | arr xs =>
    simp only [jChars, Option.some.injEq] at h
    exact ⟨'[', _, h.symm, by decide, by decide, by decide, by decide⟩
  | obj kvs =>
    simp only [jChars, Option.some.injEq] at h
    exact ⟨'{', _, h.symm, by decide, by decide, by decide, by decide⟩

/-- Serialized size dominates the structural measure, which lets a
length-proportional fuel budget cover any parsed value. -/
theorem chars_size_bound : ∀ N,
    (∀ v l, jvSize v ≤ N → pureJson v = true → jChars v = some l →
      jvSize v ≤ 3 * l.length) ∧
    (∀ xs, jlSize xs ≤ N → pureList xs = true →
      jlSize xs ≤ 3 * (sepComma (elemList xs)).length + 2) ∧
    (∀ kvs, joSize kvs ≤ N → pureObj kvs = true →
      joSize kvs ≤ 3 * (sepComma (memberList kvs)).length + 2) := by
  intro N
  induction N with
  | zero =>
    refine ⟨?_, ?_, ?_⟩
    · intro v l hN _ _; have := jvSize_pos v; omega
    · intro xs hN _; have := jlSize_pos xs; omega
    · intro kvs hN _; have := joSize_pos kvs; omega
  | succ N ih =>
    obtain ⟨ihV, ihI, ihM⟩ := ih
    refine ⟨?_, ?_, ?_⟩
    · intro v l hN hp hc
      cases v with
      | undefined => simp [pureJson] at hp
      | null =>
        simp only [jChars, Option.some.injEq] at hc
        subst hc; simp [jvSize]
      | bool b =>
        cases b <;> simp only [jChars, Option.some.injEq] at hc <;> subst hc <;> simp [jvSize]
      | num n =>
        simp only [jChars, Option.some.injEq] at hc
        subst hc
        by_cases hn : n < 0 <;> simp only [intChars, hn, if_true, if_false]
        · simp only [jvSize, List.length_cons]
          omega
        · obtain ⟨d, ds, hds, -⟩ := natChars_head n.toNat
          rw [hds]
          simp only [jvSize, List.length_cons]
          omega
      | str s =>
        simp only [jChars, Option.some.injEq] at hc
        subst hc
        simp only [jvSize, quoteChars, List.length_cons, List.length_append,
          List.length_singleton]
        omega
      | arr xs =>
        simp only [jChars, Option.some.injEq] at hc
        subst hc
        simp only [jvSize] at hN ⊢
        have hxs := ihI xs (by omega) (by simpa [pureJson] using hp)
        simp only [List.length_cons, List.length_append, List.length_singleton]
        omega
      | obj kvs =>
        simp only [jChars, Option.some.injEq] at hc
        subst hc
        simp only [jvSize] at hN ⊢
        have hkvs := ihM kvs (by omega) (by simpa [pureJson] using hp)
        simp only [List.length_cons, List.length_append, List.length_singleton]
        omega
    · intro xs hN hp
      cases xs with
      | nil => simp [jlSize, sepComma, elemList]
      | cons x t =>
        simp only [pureList, Bool.and_eq_true] at hp
        obtain ⟨lx, hlx⟩ := pure_jChars_some hp.1
        simp only [jlSize] at hN ⊢
        have hx := ihV x lx (by have := jlSize_pos t; omega) hp.1 hlx
        cases t with
        | nil =>
          simp only [elemList, hlx, Option.getD_some, sepComma, jlSize]
          omega
        | cons y t2 =>
          have hy := pure_jChars_some (by simp [pureList] at hp; exact hp.2.1 : pureJson y = true)
          obtain ⟨ly, hly⟩ := hy
          have ht := ihI (y :: t2) (by have := jvSize_pos x; omega) hp.2
          simp only [elemList, hlx, hly, Option.getD_some] at ht ⊢
          simp only [sepComma, List.length_append, List.length_cons]
          simp only [jlSize] at ht ⊢
          omega
    · intro kvs hN hp
      cases kvs with
      | nil => simp [joSize, sepComma, memberList]
      | cons kv r =>
        obtain ⟨k, v⟩ := kv
        simp only [pureObj, Bool.and_eq_true] at hp
        obtain ⟨lv, hlv⟩ := pure_jChars_some hp.1
        simp only [joSize] at hN ⊢
        have hv := ihV v lv (by have := joSize_pos r; omega) hp.1 hlv
        cases r with
        | nil =>
          simp only [memberList, hlv, sepComma, joSize]
          simp only [List.length_append, List.length_cons, quoteChars]
          omega
        | cons kv2 r2 =>
          obtain ⟨k2, v2⟩ := kv2
          have hp2 : pureJson v2 = true ∧ pureObj r2 = true := by
            simpa [pureObj, Bool.and_eq_true] using hp.2
          obtain ⟨lv2, hlv2⟩ := pure_jChars_some hp2.1
          have hr := ihM ((k2, v2) :: r2) (by have := jvSize_pos v; omega) hp.2
          simp only [memberList, hlv, hlv2] at hr ⊢
          simp only [sepComma, List.length_append, List.length_cons, quoteChars] at hr ⊢
          simp only [joSize] at hr ⊢
          omega

theorem parseVal_dispatch (f : Nat) (c : Char) (t : List Char) (hws : isWs c = false) :
    parseVal (f + 1) (c :: t) =
      (if c = 'n' then
        match t with
        | 'u' :: 'l' :: 'l' :: r => some (JVal.null, r)
        | _ => none
      else if c = 't' then
        match t with
        | 'r' :: 'u' :: 'e' :: r => some (JVal.bool true, r)
        | _ => none
      else if c = 'f' then
        match t with
        | 'a' :: 'l' :: 's' :: 'e' :: r => some (JVal.bool false, r)
        | _ => none
      else if c = '"' then (parseStrBody t).map fun p => (JVal.str ⟨p.1⟩, p.2)
      else if c = '[' then (parseItems f t).map fun p => (JVal.arr p.1, p.2)
      else if c = '{' then (parseMembers f t).map fun p => (JVal.obj p.1, p.2)
      else if c = '-' then (parseDigits t).map fun p => (JVal.num (-(p.1 : Int)), p.2)
      else if c.isDigit then (parseDigits (c :: t)).map fun p => (JVal.num (p.1 : Int), p.2)
      else none) := by
  simp only [parseVal, parsersAux]
  rw [skipWs_cons hws]
  rfl

theorem parseItems_dispatch (f : Nat) (c : Char) (t : List Char) (hws : isWs c = false) :
    parseItems (f + 1) (c :: t) =
      (if c = ']' then some ([], t)
      else
        match parseVal f (c :: t) with
        | none => none
        | some (v, r1) =>
          match skipWs r1 with
          | [] => none
          | c2 :: t2 =>
            if c2 = ',' then
              match parseItems f t2 with
              | none => none
              | some (vs, r3) => some (v :: vs, r3)
            else if c2 = ']' then some ([v], t2)
            else none) := by
  simp only [parseItems, parseVal, parsersAux]
  rw [skipWs_cons hws]

theorem parseMembers_dispatch (f : Nat) (c : Char) (t : List Char) (hws : isWs c = false) :
    parseMembers (f + 1) (c :: t) =
      (if c = '}' then some ([], t)
      else if c = '"' then
        match parseStrBody t with
        | none => none
        | some (kl, r1) =>
          match skipWs r1 with
          | [] => none
          | c2 :: t2 =>
            if c2 = ':' then
              match parseVal f t2 with
              | none => none
              | some (v, r3) =>
                match skipWs r3 with
                | [] => none
                | c3 :: t3 =>
                  if c3 = ',' then
                    match parseMembers f t3 with
                    | none => none
                    | some (ms, r5) => some ((⟨kl⟩, v) :: ms, r5)
                  else if c3 = '}' then some ([(⟨kl⟩, v)], t3)
                  else none
            else none
      else none) := by
  simp only [parseMembers, parseVal, parsersAux]
  rw [skipWs_cons hws]

/-- Serialization followed by parsing is the identity, componentwise over
the mutual parser, for every fuel exceeding the value's measure. -/
theorem parse_round : ∀ fuel,
    (∀ v l rest, pureJson v = true → jChars v = some l → jvSize v < fuel →
      noDigitHead rest → parseVal fuel (l ++ rest) = some (v, rest)) ∧
    (∀ xs rest, pureList xs = true → jlSize xs < fuel →
      parseItems fuel (sepComma (elemList xs) ++ ']' :: rest) = some (xs, rest)) ∧
    (∀ kvs rest, pureObj kvs = true → joSize kvs < fuel →
      parseMembers fuel (sepComma (memberList kvs) ++ '}' :: rest) = some (kvs, rest)) := by
  intro fuel
  induction fuel with
  | zero =>
    refine ⟨?_, ?_, ?_⟩
    · intro v _ _ _ _ h _; have := jvSize_pos v; omega
    · intro xs _ _ h; have := jlSize_pos xs; omega
    · intro kvs _ _ h; have := joSize_pos kvs; omega
  | succ fuel ih =>
    obtain ⟨ihV, ihI, ihM⟩ := ih
    refine ⟨?_, ?_, ?_⟩
    · intro v l rest hp hc hs hr
      cases v with
      | undefined => simp [pureJson] at hp
      | null =>
        simp only [jChars, Option.some.injEq] at hc
        subst hc
        simp only [List.cons_append, List.nil_append]
        rw [parseVal_dispatch fuel _ _ (by decide)]
        simp
      | bool b =>
        cases b <;> simp only [jChars, Option.some.injEq] at hc <;> subst hc
        · simp only [List.cons_append, List.nil_append]
          rw [parseVal_dispatch fuel _ _ (by decide)]
          simp
        · simp only [List.cons_append, List.nil_append]
          rw [parseVal_dispatch fuel _ _ (by decide)]
          simp
      | num n =>
        simp only [jChars, Option.some.injEq] at hc
        subst hc
        rcases lt_or_ge n 0 with hn | hn
        · simp only [intChars, if_pos hn, List.cons_append]
          rw [parseVal_dispatch fuel _ _ (by decide)]
          simp only [Char.reduceEq, reduceIte]
          rw [parseDigits_natChars _ hr]
          simp only [Option.map_some', Option.some.injEq, Prod.mk.injEq, JVal.num.injEq,
            and_true]
          omega
        · simp only [intChars, if_neg (by omega : ¬n < 0)]
          obtain ⟨d, ds, hds, hdd⟩ := natChars_head n.toNat
          obtain ⟨hws, hn1, ht1, hf1, hq1, hlb, hlc, hm1, -, -, -, -⟩ := digit_not_special hdd
          rw [hds]
          simp only [List.cons_append]
          rw [parseVal_dispatch fuel _ _ hws]
          simp only [if_neg hn1, if_neg ht1, if_neg hf1, if_neg hq1, if_neg hlb, if_neg hlc,
            if_neg hm1, hdd, if_pos]
          rw [show d :: (ds ++ rest) = (d :: ds) ++ rest from rfl, ← hds,
            parseDigits_natChars _ hr]
          simp only [Option.map_some', Option.some.injEq, Prod.mk.injEq, JVal.num.injEq,
            and_true]
          omega
      | str s =>
        simp only [jChars, Option.some.injEq] at hc
        subst hc
        simp only [quoteChars, List.cons_append]
        rw [parseVal_dispatch fuel _ _ (by decide)]
        simp only [Char.reduceEq, reduceIte]
        rw [List.append_assoc, List.singleton_append, parseStrBody_escChars]
        rfl
      | arr xs =>
        simp only [jChars, Option.some.injEq] at hc
        subst hc
        simp only [List.cons_append]
        rw [parseVal_dispatch fuel _ _ (by decide)]
        simp only [Char.reduceEq, reduceIte]
        rw [List.append_assoc, List.singleton_append,
          ihI xs rest (by simpa [pureJson] using hp) (by simp only [jvSize] at hs; omega)]
        rfl
      | obj kvs =>
        simp only [jChars, Option.some.injEq] at hc
        subst hc
        simp only [List.cons_append]
        rw [parseVal_dispatch fuel _ _ (by decide)]
        simp only [Char.reduceEq, reduceIte]
        rw [List.append_assoc, List.singleton_append,
          ihM kvs rest (by simpa [pureJson] using hp) (by simp only [jvSize] at hs; omega)]
        rfl
    · intro xs rest hp hs
      cases xs with
      | nil =>
        simp only [elemList, sepComma, List.nil_append]
        rw [parseItems_dispatch fuel _ _ (by decide)]
        simp
      | cons x t =>
        simp only [pureList, Bool.and_eq_true] at hp
        obtain ⟨lx, hlx⟩ := pure_jChars_some hp.1
        obtain ⟨cx, tx, hcx, hxws, hxrb, hxrc, hxcm⟩ := jChars_head hp.1 hlx
        have hsx : jvSize x < fuel := by
          simp only [jlSize] at hs
          have := jlSize_pos t
          omega
        have hst : jlSize t < fuel := by
          simp only [jlSize] at hs
          have := jvSize_pos x
          omega
        cases t with
        | nil =>
          simp only [elemList, hlx, Option.getD_some, sepComma]
          rw [hcx]
          simp only [List.cons_append]
          rw [parseItems_dispatch fuel _ _ hxws]
          rw [if_neg hxrb]
          rw [show cx :: (tx ++ ']' :: rest) = (cx :: tx) ++ (']' :: rest) from rfl, ← hcx,
            ihV x lx (']' :: rest) hp.1 hlx hsx (noDigitHead_cons _ (by decide))]
          simp [skipWs_cons (show isWs ']' = false from by decide)]
        | cons y t2 =>
          have hpy : pureJson y = true := by
            simp only [pureList, Bool.and_eq_true] at hp
            exact hp.2.1
          obtain ⟨ly, hly⟩ := pure_jChars_some hpy
          simp only [elemList, hlx, hly, Option.getD_some]
          rw [show sepComma (lx :: ly :: elemList t2) = lx ++ ',' :: sepComma (ly :: elemList t2)
            from rfl]
          rw [hcx]
          simp only [List.cons_append, List.append_assoc]
          rw [parseItems_dispatch fuel _ _ hxws]
          rw [if_neg hxrb]
          rw [show cx :: (tx ++ (',' :: (sepComma (ly :: elemList t2) ++ ']' :: rest)))
              = (cx :: tx) ++ (',' :: (sepComma (ly :: elemList t2) ++ ']' :: rest)) from rfl,
            ← hcx,
            ihV x lx _ hp.1 hlx hsx (noDigitHead_cons _ (by decide))]
          have hitems := ihI (y :: t2) rest hp.2 hst
          simp only [elemList, hly, Option.getD_some] at hitems
          simp [skipWs_cons (show isWs ',' = false from by decide), hitems]
    · intro kvs rest hp hs
      cases kvs with
      | nil =>
        simp only [memberList, sepComma, List.nil_append]
        rw [parseMembers_dispatch fuel _ _ (by decide)]
        simp
      | cons kv r =>
        obtain ⟨k, v⟩ := kv
        simp only [pureObj, Bool.and_eq_true] at hp
        obtain ⟨lv, hlv⟩ := pure_jChars_some hp.1
        have hsv : jvSize v < fuel := by
          simp only [joSize] at hs
          have := joSize_pos r
          omega
        have hsr : joSize r < fuel := by
          simp only [joSize] at hs
          have := jvSize_pos v
          omega
        cases r with
        | nil =>
          simp only [memberList, hlv, sepComma, quoteChars]
          simp only [List.cons_append, List.append_assoc]
          rw [parseMembers_dispatch fuel _ _ (by decide)]
          simp only [Char.reduceEq, reduceIte]
          simp only [List.nil_append]
          rw [parseStrBody_escChars]
          simp only [skipWs_cons (show isWs ':' = false from by decide), Char.reduceEq,
            reduceIte]
          rw [ihV v lv ('}' :: rest) hp.1 hlv hsv (noDigitHead_cons _ (by decide))]
          simp [skipWs_cons (show isWs '}' = false from by decide)]
        | cons kv2 r2 =>
          obtain ⟨k2, v2⟩ := kv2
          have hp2 : pureJson v2 = true ∧ pureObj r2 = true := by
            simpa [pureObj, Bool.and_eq_true] using hp.2
          obtain ⟨lv2, hlv2⟩ := pure_jChars_some hp2.1
          simp only [memberList, hlv, hlv2]
          rw [show sepComma ((quoteChars k.data ++ ':' :: lv) ::
                (quoteChars k2.data ++ ':' :: lv2) :: memberList r2)
              = (quoteChars k.data ++ ':' :: lv) ++ ',' ::
                sepComma ((quoteChars k2.data ++ ':' :: lv2) :: memberList r2) from rfl]
          simp only [quoteChars, List.cons_append, List.append_assoc]
          rw [parseMembers_dispatch fuel _ _ (by decide)]
          simp only [Char.reduceEq, reduceIte]
          simp only [List.nil_append]
          rw [parseStrBody_escChars]
          simp only [skipWs_cons (show isWs ':' = false from by decide), Char.reduceEq,
            reduceIte]
          rw [ihV v lv _ hp.1 hlv hsv (noDigitHead_cons _ (by decide))]
          have hmem := ihM ((k2, v2) :: r2) rest hp.2 hsr
          simp only [memberList, hlv2, quoteChars, List.cons_append, List.append_assoc,
            List.singleton_append, List.nil_append] at hmem
          simp [skipWs_cons (show isWs ',' = false from by decide), hmem]

/-- `JSON.parse` inverts `JSON.stringify` on every JSON-representable
(`pureJson`) value. -/
theorem jsonParse_jsonStringify {v : JVal} {s : String} (hp : pureJson v = true)
    (hs : jsonStringify v = some s) : jsonParse s = some v := by
  obtain ⟨l, hl⟩ := pure_jChars_some hp
  have hsl : s = ⟨l⟩ := by
    simp only [jsonStringify, hl, Option.map_some', Option.some.injEq] at hs
    exact hs.symm
  subst hsl
  have hbound := (chars_size_bound (jvSize v)).1 v l (le_refl _) hp hl
  have hround := (parse_round (3 * l.length + 3)).1 v l [] hp hl (by omega) trivial
  rw [List.append_nil] at hround
  simp only [jsonParse]
  rw [show ({ data := l } : String).length = l.length from rfl, hround]
  simp [skipWs]

theorem processCalls_eq (reg : Registry) :
    ∀ (tcs : List ToolCall) (ms : List Msg) (tr : List Event),
      processCalls reg tcs ms tr =
        (ms ++ tcs.map (execMsg reg), tr ++ tcs.map mkDispatch) := by
  intro tcs
  induction tcs with
  | nil => intro ms tr; simp [processCalls]
  | cons tc rest ih =>
    intro ms tr
    simp only [processCalls, ih, List.map_cons]
    simp

theorem execMsg_role (reg : Registry) (tc : ToolCall) : (execMsg reg tc).role = "tool" := by
  simp only [execMsg]
  cases resolveTool reg (tcName tc) <;> rfl

theorem execMsg_id (reg : Registry) (tc : ToolCall) :
    (execMsg reg tc).tool_call_id = some tc.id := by
  simp only [execMsg]
  cases resolveTool reg (tcName tc) <;> rfl

theorem countModelCalls_append (tr tr2 : List Event) :
    countModelCalls (tr ++ tr2) = countModelCalls tr + countModelCalls tr2 := by
  simp [countModelCalls, List.filter_append]

theorem countDispatches_append (tr tr2 : List Event) :
    countDispatches (tr ++ tr2) = countDispatches tr + countDispatches tr2 := by
  simp [countDispatches, List.filter_append]

theorem registerAll_counts :
    ∀ (ts : List ToolDef) (reg : Registry) (tr : List Event) (reg2 : Registry)
      (tr2 : List Event), registerAll reg tr ts = .ok (reg2, tr2) →
      countModelCalls tr2 = countModelCalls tr ∧ countDispatches tr2 = countDispatches tr := by
  intro ts
  induction ts with
  | nil =>
    intro reg tr reg2 tr2 h
    simp only [registerAll, Except.ok.injEq] at h
    obtain ⟨-, rfl⟩ := Prod.mk.injEq .. ▸ h
    exact ⟨rfl, rfl⟩
  | cons t rest ih =>
    intro reg tr reg2 tr2 h
    simp only [registerAll] at h
    cases hreg : registerTool reg t with
    | error e => rw [hreg] at h; exact absurd h (by simp)
    | ok reg3 =>
      rw [hreg] at h
      have := ih reg3 (tr ++ [.toolRegistered t.name]) reg2 tr2 h
      rw [countModelCalls_append, countDispatches_append] at this
      have e1 : countModelCalls [Event.toolRegistered t.name] = 0 := rfl
      have e2 : countDispatches [Event.toolRegistered t.name] = 0 := rfl
      rw [e1, e2] at this
      omega

theorem connectAll_counts (mcp : McpOracle) :
    ∀ (srvs : List McpServer) (reg : Registry) (tr : List Event) (reg2 : Registry)
      (tr2 : List Event), connectAll mcp reg tr srvs = .ok (reg2, tr2) →
      countModelCalls tr2 = countModelCalls tr ∧ countDispatches tr2 = countDispatches tr := by
  intro srvs
  induction srvs with
  | nil =>
    intro reg tr reg2 tr2 h
    simp only [connectAll, Except.ok.injEq] at h
    obtain ⟨-, rfl⟩ := Prod.mk.injEq .. ▸ h
    exact ⟨rfl, rfl⟩
  | cons srv rest ih =>
    intro reg tr reg2 tr2 h
    simp only [connectAll] at h
    cases hm : mcp srv with
    | error e => rw [hm] at h; exact absurd h (by simp)
    | ok mts =>
      rw [hm] at h
      dsimp only at h
      cases hra : registerAll reg (tr ++ [.mcpConnected srv.name]) (mts.map (wrapMcpTool srv)) with
      | error e => rw [hra] at h; exact absurd h (by simp)
      | ok p =>
        rw [hra] at h
        obtain ⟨reg3, tr3⟩ := p
        dsimp only at h
        have h1 := registerAll_counts _ _ _ _ _ hra
        rw [countModelCalls_append, countDispatches_append] at h1
        have e1 : countModelCalls [Event.mcpConnected srv.name] = 0 := rfl
        have e2 : countDispatches [Event.mcpConnected srv.name] = 0 := rfl
        rw [e1, e2] at h1
        have h2 := ih reg3 tr3 reg2 tr2 h
        omega

theorem initAgent_counts {a : Agent} {mcp : McpOracle} {reg : Registry} {tr0 : List Event}
    (h : initAgent a mcp = .ok (reg, tr0)) :
    countModelCalls tr0 = 0 ∧ countDispatches tr0 = 0 := by
  simp only [initAgent] at h
  cases hra : registerAll [] [] a.customTools with
  | error e => rw [hra] at h; exact absurd h (by simp)
  | ok p =>
    rw [hra] at h
    obtain ⟨reg1, tr1⟩ := p
    have h1 := registerAll_counts _ _ _ _ _ hra
    have h2 := connectAll_counts _ _ _ _ _ _ h
    have e1 : countModelCalls ([] : List Event) = 0 := rfl
    have e2 : countDispatches ([] : List Event) = 0 := rfl
    omega

theorem loopRun_guardrail (a : Agent) (oracle : Oracle) (reg : Registry)
    (hor : ∀ ms, ∃ m, oracle (openAIToolsSpec reg) ms = .ok (some m) ∧ m.tool_calls ≠ []) :
    ∀ fuel turnNo ms tr, ∃ out,
      loopRun a oracle reg fuel turnNo ms tr = .ok out ∧ out.text = .str guardrailText := by
  intro fuel
  induction fuel with
  | zero => intro turnNo ms tr; exact ⟨_, rfl, rfl⟩
  | succ fuel ih =>
    intro turnNo ms tr
    obtain ⟨m, hm, hmt⟩ := hor ms
    cases hc : m.tool_calls with
    | nil => exact absurd hc hmt
    | cons tc tcs =>
      simp only [loopRun, hm, hc]
      exact ih _ _ _

theorem loopRun_extends (a : Agent) (oracle : Oracle) (reg : Registry) :
    ∀ fuel turnNo ms tr out, loopRun a oracle reg fuel turnNo ms tr = .ok out →
      ∃ tail, out.messages = ms ++ tail := by
  intro fuel
  induction fuel with
  | zero =>
    intro turnNo ms tr out h
    simp only [loopRun, Except.ok.injEq] at h
    exact ⟨[], by rw [← h]; simp⟩
  | succ fuel ih =>
    intro turnNo ms tr out h
    simp only [loopRun] at h
    cases horacle : oracle (openAIToolsSpec reg) ms with
    | error e => rw [horacle] at h; exact absurd h (by simp)
    | ok om =>
      rw [horacle] at h
      cases om with
      | none => exact absurd h (by simp)
      | some m =>
        dsimp only at h
        cases hc : m.tool_calls with
        | nil =>
          rw [hc] at h
          simp only [Except.ok.injEq] at h
          exact ⟨[m], by rw [← h]⟩
        | cons tc tcs =>
          rw [hc] at h
          dsimp only at h
          obtain ⟨tail2, htail⟩ := ih _ _ _ _ h
          rw [processCalls_eq] at htail
          refine ⟨[m] ++ (jsSlice0 a.maxToolCallsPerTurn (tc :: tcs)).map (execMsg reg) ++ tail2, ?_⟩
          rw [htail]
          simp

theorem loopRun_tool_msgs (a : Agent) (oracle : Oracle) (reg : Registry)
    (hor : ∀ specs ms m, oracle specs ms = .ok (some m) → m.role ≠ "tool") :
    ∀ fuel turnNo ms tr out, loopRun a oracle reg fuel turnNo ms tr = .ok out →
      (∀ m, m ∈ ms → m.role = "tool" →
        ∃ i, m.tool_call_id = some i ∧ ∃ nm, Event.dispatch i nm ∈ tr) →
      ∀ m, m ∈ out.messages → m.role = "tool" →
        ∃ i, m.tool_call_id = some i ∧ ∃ nm, Event.dispatch i nm ∈ out.trace := by
  intro fuel
  induction fuel with
  | zero =>
    intro turnNo ms tr out h hinv
    simp only [loopRun, Except.ok.injEq] at h
    rw [← h]
    exact hinv
  | succ fuel ih =>
    intro turnNo ms tr out h hinv
    simp only [loopRun] at h
    cases horacle : oracle (openAIToolsSpec reg) ms with
    | error e => rw [horacle] at h; exact absurd h (by simp)
    | ok om =>
      rw [horacle] at h
      cases om with
      | none => exact absurd h (by simp)
      | some m =>
        dsimp only at h
        have hrole := hor _ _ _ horacle
        cases hc : m.tool_calls with
        | nil =>
          rw [hc] at h
          simp only [Except.ok.injEq] at h
          rw [← h]
          intro m2 hm2 hr2
          rcases List.mem_append.mp hm2 with hold | hnew
          · obtain ⟨i, hi, nm, hd⟩ := hinv m2 hold hr2
            exact ⟨i, hi, nm, List.mem_append_left _ hd⟩
          · rw [List.mem_singleton] at hnew
            subst hnew
            exact absurd hr2 hrole
        | cons tc tcs =>
          rw [hc] at h
          dsimp only at h
          refine ih _ _ _ _ h ?_
          rw [processCalls_eq]
          intro m2 hm2 hr2
          rcases List.mem_append.mp hm2 with hm2a | hnew
          · rcases List.mem_append.mp hm2a with hold | hmsg
            · obtain ⟨i, hi, nm, hd⟩ := hinv m2 hold hr2
              exact ⟨i, hi, nm, List.mem_append_left _ (List.mem_append_left _ hd)⟩
            · rw [List.mem_singleton] at hmsg
              subst hmsg
              exact absurd hr2 hrole
          · obtain ⟨tc2, htc2, hex⟩ := List.mem_map.mp hnew
            subst hex
            refine ⟨tc2.id, execMsg_id reg tc2, tc2.fname, ?_⟩
            refine List.mem_append_right _ ?_
            exact List.mem_map.mpr ⟨tc2, htc2, rfl⟩

theorem run_eq (a : Agent) (mcp : McpOracle) (oracle : Oracle) (user : String)
    (reg : Registry) (tr0 : List Event)
    (hkey : a.apiKey ≠ "") (hmodel : a.model ≠ "")
    (hinit : initAgent a mcp = .ok (reg, tr0)) :
    Agent.run a mcp oracle user =
      loopRun a oracle reg a.maxTurns.toNat 1 (seedMsgs a user) tr0 := by
  simp only [Agent.run, if_neg hkey, if_neg hmodel, hinit]

theorem seedMsgs_roles (a : Agent) (user : String) :
    ∀ m, m ∈ seedMsgs a user → m.role ≠ "tool" := by
  intro m hm
  simp only [seedMsgs] at hm
  by_cases hsys : a.system = ""
  · simp [hsys] at hm
    subst hm
    simp
  · simp [hsys] at hm
    rcases hm with rfl | rfl <;> simp

/-- C1 (amended with `maxTurns ≥ 1`): for a valid configuration (model and
apiKey present), if the model's first response carries no tool-invocation
requests, `run` terminates after exactly one model call and returns the
coerced content of that first assistant message. -/
theorem run_first_response_no_tool_calls (a : Agent) (mcp : McpOracle) (oracle : Oracle)
    (user : String) (reg : Registry) (tr0 : List Event) (m : Msg)
    (hkey : a.apiKey ≠ "") (hmodel : a.model ≠ "") (hturns : 1 ≤ a.maxTurns)
    (hinit : initAgent a mcp = .ok (reg, tr0))
    (horacle : oracle (openAIToolsSpec reg) (seedMsgs a user) = .ok (some m))
    (hnotc : m.tool_calls = []) :
    Agent.run a mcp oracle user =
      .ok { text := coerceText m.content, messages := seedMsgs a user ++ [m]
          , trace := tr0 ++ [Event.modelCall 1] }
    ∧ countModelCalls (tr0 ++ [Event.modelCall 1]) = 1 := by
  have hfuel : a.maxTurns.toNat = (a.maxTurns.toNat - 1) + 1 := by omega
  constructor
  · rw [run_eq a mcp oracle user reg tr0 hkey hmodel hinit, hfuel]
    simp only [loopRun, horacle, hnotc]
  · rw [countModelCalls_append, (initAgent_counts hinit).1]
    rfl

/-- C2: if the model responds on every turn with an assistant message that
carries at least one tool-invocation request, `run` (with `maxTurns ≥ 1`)
returns normally and its text is the fixed guardrail sentinel. -/
theorem run_all_tool_calls_guardrail (a : Agent) (mcp : McpOracle) (oracle : Oracle)
    (user : String) (reg : Registry) (tr0 : List Event)
    (hkey : a.apiKey ≠ "") (hmodel : a.model ≠ "") (hturns : 1 ≤ a.maxTurns)
    (hinit : initAgent a mcp = .ok (reg, tr0))
    (hor : ∀ ms, ∃ m, oracle (openAIToolsSpec reg) ms = .ok (some m) ∧ m.tool_calls ≠ []) :
    ∃ out, Agent.run a mcp oracle user = .ok out ∧ out.text = .str guardrailText := by
  rw [run_eq a mcp oracle user reg tr0 hkey hmodel hinit]
  exact loopRun_guardrail a oracle reg hor _ _ _ _

/-- C4 (amended): a dispatched request whose resolved handler throws with a
NONEMPTY failure description produces exactly one `tool` message, whose
content is the `__error__: ` marker followed by that description,
correlated to the request's id; the surrounding per-turn processing
continues with the remaining requests. (An empty description is falsy, so
line 156 takes the success branch instead: see the counterexample.) -/
theorem handler_failure_reported (reg : Registry) (tc : ToolCall) (t : ToolDef) (e : String)
    (hres : resolveTool reg (tcName tc) = .tool t) (hne : e ≠ "")
    (hfail : t.handler (tcArgs tc) = .error e) :
    execMsg reg tc =
      { role := "tool", content := .str ("__error__: " ++ e), tool_call_id := some tc.id }
    ∧ ∀ pre post ms tr,
        processCalls reg (pre ++ tc :: post) ms tr =
          (ms ++ pre.map (execMsg reg)
              ++ { role := "tool", content := .str ("__error__: " ++ e)
                 , tool_call_id := some tc.id } :: post.map (execMsg reg),
           tr ++ pre.map mkDispatch ++ mkDispatch tc :: post.map mkDispatch) := by
  have h1 : execMsg reg tc =
      { role := "tool", content := .str ("__error__: " ++ e), tool_call_id := some tc.id } := by
    simp [execMsg, hres, hfail, toolResultContent, hne]
  refine ⟨h1, ?_⟩
  intro pre post ms tr
  rw [processCalls_eq]
  simp [List.map_append, List.map_cons, h1, List.append_assoc]

/-- C4 counterexample: a resolved handler that throws with an EMPTY
description (`throw new Error("")`) makes `error` falsy, so line 156 takes
the success branch with `result` still `undefined`: the tool message's
content is `JSON.stringify(undefined)`, i.e. `undefined`, not a string
carrying the `__error__: ` marker (nor any string at all). -/
theorem handler_empty_error_counterexample :
    resolveTool regEmptyBoom (tcName tcEBoom) = .tool emptyBoomTool
    ∧ emptyBoomTool.handler (tcArgs tcEBoom) = .error ""
    ∧ (execMsg regEmptyBoom tcEBoom).content = .undefined
    ∧ ∀ s, (execMsg regEmptyBoom tcEBoom).content ≠ .str s := by
  have hc : (execMsg regEmptyBoom tcEBoom).content = .undefined := by
    simp [execMsg, resolveTool, regEmptyBoom, tcEBoom, tcName, toolResultContent,
      serializeResult, jsonStringify, jChars, emptyBoomTool]
  refine ⟨rfl, rfl, hc, ?_⟩
  intro s h
  rw [hc] at h
  exact JVal.noConfusion h

/-- C5 (amended): the registry read never raises, and when the name is
neither a registered tool nor an `Object.prototype` member name the
dispatched request produces exactly one `tool` message carrying the
not-found indicator, correlated to the request's id, and processing
continues with the remaining requests. (An inherited member name such as
`toString` reads as a truthy function, so the not-found guard does not
fire and the turn instead reports a TypeError: see the counterexample.) -/
theorem tool_not_found_reported (reg : Registry) (tc : ToolCall)
    (hres : resolveTool reg (tcName tc) = .missing) :
    execMsg reg tc =
      { role := "tool", content := .str ("Tool " ++ tcName tc ++ " not found.")
      , tool_call_id := some tc.id }
    ∧ ∀ pre post ms tr,
        processCalls reg (pre ++ tc :: post) ms tr =
          (ms ++ pre.map (execMsg reg)
              ++ { role := "tool", content := .str ("Tool " ++ tcName tc ++ " not found.")
                 , tool_call_id := some tc.id } :: post.map (execMsg reg),
           tr ++ pre.map mkDispatch ++ mkDispatch tc :: post.map mkDispatch) := by
  have h1 : execMsg reg tc =
      { role := "tool", content := .str ("Tool " ++ tcName tc ++ " not found.")
      , tool_call_id := some tc.id } := by
    simp [execMsg, hres]
  refine ⟨h1, ?_⟩
  intro pre post ms tr
  rw [processCalls_eq]
  simp [List.map_append, List.map_cons, h1, List.append_assoc]

/-- C5 counterexample: requesting the unregistered name `toString` on an
EMPTY registry does not produce the not-found report: the property read
`this.toolRegistry["toString"]` finds the truthy inherited
`Object.prototype.toString`, the `if (!tool)` guard passes, and
`tool.handler(...)` throws a TypeError that the catch turns into an
`__error__: `-marked message. -/
theorem inherited_name_counterexample :
    resolveTool [] (tcName tcProto) = .inherited
    ∧ (execMsg [] tcProto).content = .str ("__error__: " ++ protoCallError)
    ∧ (execMsg [] tcProto).content ≠
        .str ("Tool " ++ tcName tcProto ++ " not found.") := by
  refine ⟨rfl, rfl, ?_⟩
  intro h
  exact absurd (JVal.str.inj h) (by decide)

/-- C8: for a successfully dispatched invocation, a plain-string result is
carried verbatim as the tool message's content; any other
JSON-representable result is carried as its `JSON.stringify` serialization,
and `JSON.parse` of that content returns the original result. -/
theorem tool_result_round_trip (reg : Registry) (tc : ToolCall) (t : ToolDef) (r : JVal)
    (hres : resolveTool reg (tcName tc) = .tool t)
    (hok : t.handler (tcArgs tc) = .ok r) :
    (∀ s, r = .str s → (execMsg reg tc).content = .str s)
    ∧ (pureJson r = true → (∀ s, r ≠ .str s) →
        ∃ enc, jsonStringify r = some enc ∧ (execMsg reg tc).content = .str enc ∧
          jsonParse enc = some r) := by
  have hbase : (execMsg reg tc).content = toolResultContent (.ok r) := by
    simp [execMsg, hres, hok]
  constructor
  · intro s hs
    subst hs
    rw [hbase]
    rfl
  · intro hp hns
    obtain ⟨l, hl⟩ := pure_jChars_some hp
    have hstr : jsonStringify r = some ⟨l⟩ := by simp [jsonStringify, hl]
    refine ⟨⟨l⟩, hstr, ?_, jsonParse_jsonStringify hp hstr⟩
    rw [hbase]
    have hcontent : toolResultContent (.ok r) =
        match jsonStringify r with
        | some t2 => JVal.str t2
        | none => JVal.undefined := by
      cases r with
      | str s => exact absurd rfl (hns s)
      | undefined => rfl
      | null => rfl
      | bool b => rfl
      | num n => rfl
      | arr xs => rfl
      | obj kvs => rfl
    rw [hcontent, hstr]

/-- C10: with model and apiKey present but `maxTurns ≤ 0`, `run` issues no
model-completion request, dispatches no tool invocation, and returns the
guardrail sentinel; initialization (tool registration and MCP connection,
whose events form the whole final trace) still ran first. -/
theorem run_nonpositive_max_turns (a : Agent) (mcp : McpOracle) (oracle : Oracle)
    (user : String) (reg : Registry) (tr0 : List Event)
    (hkey : a.apiKey ≠ "") (hmodel : a.model ≠ "")
    (hturns : a.maxTurns ≤ 0) (hinit : initAgent a mcp = .ok (reg, tr0)) :
    Agent.run a mcp oracle user =
      .ok { text := .str guardrailText, messages := seedMsgs a user, trace := tr0 }
    ∧ countModelCalls tr0 = 0 ∧ countDispatches tr0 = 0 := by
  have hfuel : a.maxTurns.toNat = 0 := by omega
  refine ⟨?_, (initAgent_counts hinit).1, (initAgent_counts hinit).2⟩
  rw [run_eq a mcp oracle user reg tr0 hkey hmodel hinit, hfuel]
  rfl

theorem join_eq_foldr (l : List String) :
    String.join l = l.foldr (fun a acc => a ++ acc) "" := by
  have haux : ∀ (l : List String) (s : String),
      List.foldl (fun a b => a ++ b) s l = s ++ l.foldr (fun a acc => a ++ acc) "" := by
    intro l
    induction l with
    | nil => intro s; simp
    | cons a t ih =>
      intro s
      simp only [List.foldl_cons, List.foldr_cons, ih (s ++ a), String.append_assoc]
  simpa [String.join] using haux l ""

theorem elemStr_truthy {v : JVal} (h : jsTruthy v = true) :
    jsToString.elemStr v = jsToString v := by
  cases v with
  | undefined => simp [jsTruthy] at h
  | null => simp [jsTruthy] at h
  | bool b => simp [jsToString.elemStr]
  | num n => simp [jsToString.elemStr]
  | str s => simp [jsToString.elemStr]
  | arr xs => simp [jsToString.elemStr]
  | obj kvs => simp [jsToString.elemStr]

theorem elemStr_jsOr (v : JVal) :
    jsToString.elemStr (jsOr v (.str "")) = if jsTruthy v then jsToString v else "" := by
  by_cases ht : jsTruthy v = true
  · simp only [jsOr, ht, if_true]
    exact elemStr_truthy ht
  · simp only [jsOr, ht, if_false]
    simp [jsToString.elemStr, jsToString]

theorem elemStr_mapPart (p : JVal) :
    jsToString.elemStr (mapPart p) = claimPartText p := by
  cases p with
  | str s => simp [mapPart, claimPartText, jsToString.elemStr, jsToString]
  | undefined => exact elemStr_jsOr _
  | null => exact elemStr_jsOr _
  | bool b => exact elemStr_jsOr _
  | num n => exact elemStr_jsOr _
  | arr xs => exact elemStr_jsOr _
  | obj kvs => exact elemStr_jsOr _

/-- C6: `coerceText` realizes exactly the claim's four-case coercion rule
(as rendered by `claimCoerceText`). -/
theorem coerce_text_cases (c : JVal) : coerceText c = claimCoerceText c := by
  cases c with
  | str s => rfl
  | arr parts =>
    simp only [coerceText, claimCoerceText, JVal.str.injEq]
    rw [join_eq_foldr, List.foldr_map, List.foldr_map]
    induction parts with
    | nil => rfl
    | cons p ps ih => simp only [List.foldr_cons, elemStr_mapPart, ih]
  | obj kvs =>
    by_cases h : kvs.any (fun p => p.1 = "text")
    · simp [coerceText, claimCoerceText, jsTruthy, jsTypeofObject, jsHasProp, h]
    · simp [coerceText, claimCoerceText, jsTruthy, jsTypeofObject, jsHasProp, h,
        jsNullish, claimStringifyPresent]
  | undefined =>
    simp [coerceText, claimCoerceText, jsTruthy, jsTypeofObject, jsNullish,
      claimStringifyPresent, jsToString]
  | null =>
    simp [coerceText, claimCoerceText, jsTruthy, jsTypeofObject, jsNullish,
      claimStringifyPresent, jsToString]
  | bool b =>
    cases b <;>
      simp [coerceText, claimCoerceText, jsTruthy, jsTypeofObject, jsNullish,
        claimStringifyPresent, jsToString]
  | num n =>
    simp [coerceText, claimCoerceText, jsTypeofObject, jsNullish, claimStringifyPresent]

theorem run_ok_destruct {a : Agent} {mcp : McpOracle} {oracle : Oracle} {user : String}
    {out : RunOutcome} (h : Agent.run a mcp oracle user = .ok out) :
    ∃ reg tr0, initAgent a mcp = .ok (reg, tr0) ∧
      loopRun a oracle reg a.maxTurns.toNat 1 (seedMsgs a user) tr0 = .ok out := by
  by_cases h1 : a.apiKey = ""
  · simp [Agent.run, h1] at h
  · by_cases h2 : a.model = ""
    · simp [Agent.run, h1, h2] at h
    · simp only [Agent.run, if_neg h1, if_neg h2] at h
      cases hinit : initAgent a mcp with
      | error e => rw [hinit] at h; exact absurd h (by simp)
      | ok p =>
        obtain ⟨reg, tr0⟩ := p
        rw [hinit] at h
        dsimp only at h
        exact ⟨reg, tr0, rfl, h⟩

/-- C3: when an assistant message carries more than `maxToolCallsPerTurn`
requests (the guardrail being a count, hence nonnegative), the turn
dispatches exactly the first `maxToolCallsPerTurn` of them, in order — one
tool message and one dispatch event each — and, over a whole run whose
model messages are not `tool`-role, every tool message in the transcript
is correlated to a dispatched request's id, so the dropped requests
produce no tool message in this or any later turn. -/
theorem turn_excess_tool_calls (a : Agent) (reg : Registry) (msg : Msg)
    (hk : 0 ≤ a.maxToolCallsPerTurn)
    (hmore : a.maxToolCallsPerTurn.toNat < msg.tool_calls.length) :
    jsSlice0 a.maxToolCallsPerTurn msg.tool_calls
        = msg.tool_calls.take a.maxToolCallsPerTurn.toNat
    ∧ (∀ ms tr, processCalls reg (jsSlice0 a.maxToolCallsPerTurn msg.tool_calls) ms tr
        = (ms ++ (msg.tool_calls.take a.maxToolCallsPerTurn.toNat).map (execMsg reg),
           tr ++ (msg.tool_calls.take a.maxToolCallsPerTurn.toNat).map mkDispatch))
    ∧ (∀ mcp oracle user out,
        (∀ specs ms2 m2, oracle specs ms2 = .ok (some m2) → m2.role ≠ "tool") →
        Agent.run a mcp oracle user = .ok out →
        ∀ tmsg, tmsg ∈ out.messages → tmsg.role = "tool" →
          ∃ i, tmsg.tool_call_id = some i ∧ ∃ nm, Event.dispatch i nm ∈ out.trace) := by
  have hslice : jsSlice0 a.maxToolCallsPerTurn msg.tool_calls
      = msg.tool_calls.take a.maxToolCallsPerTurn.toNat := by
    simp [jsSlice0, hk]
  refine ⟨hslice, ?_, ?_⟩
  · intro ms tr
    rw [hslice, processCalls_eq]
  · intro mcp oracle user out hor hrun tmsg hmem hrole
    obtain ⟨reg2, tr02, hinit2, hloop⟩ := run_ok_destruct hrun
    refine loopRun_tool_msgs a oracle reg2 hor _ _ _ _ _ hloop ?_ tmsg hmem hrole
    intro m hm hr
    exact absurd hr (seedMsgs_roles a user m hm)

/-- C9: the transcript is append-only: the per-turn tool-call processing,
the turn loop, and the whole run each only extend the message sequence
they start from (the seeded transcript is an initial segment of the final
one, and no element is modified or removed). -/
theorem transcript_append_only :
    (∀ (reg : Registry) (tcs : List ToolCall) (ms : List Msg) (tr : List Event),
      ∃ tail, (processCalls reg tcs ms tr).1 = ms ++ tail)
    ∧ (∀ (a : Agent) (oracle : Oracle) (reg : Registry) (fuel turnNo : Nat)
        (ms : List Msg) (tr : List Event) (out : RunOutcome),
        loopRun a oracle reg fuel turnNo ms tr = .ok out → ∃ tail, out.messages = ms ++ tail)
    ∧ (∀ (a : Agent) (mcp : McpOracle) (oracle : Oracle) (user : String) (out : RunOutcome),
        Agent.run a mcp oracle user = .ok out →
        ∃ tail, out.messages = seedMsgs a user ++ tail) := by
  refine ⟨?_, ?_, ?_⟩
  · intro reg tcs ms tr
    rw [processCalls_eq]
    exact ⟨_, rfl⟩
  · intro a oracle reg fuel turnNo ms tr out h
    exact loopRun_extends a oracle reg fuel turnNo ms tr out h
  · intro a mcp oracle user out h
    obtain ⟨reg, tr0, -, hloop⟩ := run_ok_destruct h
    exact loopRun_extends _ _ _ _ _ _ _ _ hloop

/-- C1, counterexample to the unamended claim: with model and apiKey
present but `maxTurns = 0`, and a first model response that carries no
tool calls, `run` makes zero model calls (the trace is empty) and returns
the guardrail sentinel, not the coerced first-message content. -/
theorem run_zero_turns_counterexample :
    Agent.run agentNoTurns mcpNone orHello "hi" =
      .ok { text := .str guardrailText
          , messages := [{ role := "user", content := .str "hi" }], trace := [] }
    ∧ JVal.str guardrailText ≠ coerceText msgHello.content := by
  constructor
  · rfl
  · have hco : coerceText msgHello.content = .str "Hello!" := rfl
    rw [hco]
    intro hcontra
    injection hcontra with h2
    exact absurd h2 (by decide)

theorem c1_witness :
    Agent.run agentOneTurn mcpNone orHello "hi" =
      .ok { text := coerceText msgHello.content
          , messages := seedMsgs agentOneTurn "hi" ++ [msgHello]
          , trace := [] ++ [Event.modelCall 1] }
    ∧ countModelCalls ([] ++ [Event.modelCall 1]) = 1 :=
  run_first_response_no_tool_calls agentOneTurn mcpNone orHello "hi" [] [] msgHello
    (by decide) (by decide) (by decide) rfl rfl rfl

theorem c2_witness :
    ∃ out, Agent.run agentThreeTurns mcpNone orToolCall "hi" = .ok out ∧
      out.text = .str guardrailText :=
  run_all_tool_calls_guardrail agentThreeTurns mcpNone orToolCall "hi" [] []
    (by decide) (by decide) (by decide) rfl
    (fun _ => ⟨msgToolCall, rfl, by decide⟩)

theorem c3_witness :
    (0 ≤ agentOneCall.maxToolCallsPerTurn
    ∧ agentOneCall.maxToolCallsPerTurn.toNat < msgTwoCalls.tool_calls.length)
    ∧ (jsSlice0 agentOneCall.maxToolCallsPerTurn msgTwoCalls.tool_calls
        = msgTwoCalls.tool_calls.take agentOneCall.maxToolCallsPerTurn.toNat
      ∧ (∀ ms tr, processCalls regTools
            (jsSlice0 agentOneCall.maxToolCallsPerTurn msgTwoCalls.tool_calls) ms tr
          = (ms ++ (msgTwoCalls.tool_calls.take
                agentOneCall.maxToolCallsPerTurn.toNat).map (execMsg regTools),
             tr ++ (msgTwoCalls.tool_calls.take
                agentOneCall.maxToolCallsPerTurn.toNat).map mkDispatch))
      ∧ (∀ mcp oracle user out,
          (∀ specs ms2 m2, oracle specs ms2 = .ok (some m2) → m2.role ≠ "tool") →
          Agent.run agentOneCall mcp oracle user = .ok out →
          ∀ tmsg, tmsg ∈ out.messages → tmsg.role = "tool" →
            ∃ i, tmsg.tool_call_id = some i ∧ ∃ nm, Event.dispatch i nm ∈ out.trace)) :=
  ⟨⟨by decide, by decide⟩,
    turn_excess_tool_calls agentOneCall regTools msgTwoCalls (by decide) (by decide)⟩

theorem c4_witness :
    (resolveTool regTools (tcName tcBoom) = .tool boomTool
    ∧ ("kaboom" : String) ≠ ""
    ∧ boomTool.handler (tcArgs tcBoom) = .error "kaboom")
    ∧ (execMsg regTools tcBoom =
        { role := "tool", content := .str ("__error__: " ++ "kaboom")
        , tool_call_id := some tcBoom.id }
      ∧ ∀ pre post ms tr,
          processCalls regTools (pre ++ tcBoom :: post) ms tr =
            (ms ++ pre.map (execMsg regTools)
                ++ { role := "tool", content := .str ("__error__: " ++ "kaboom")
                   , tool_call_id := some tcBoom.id } :: post.map (execMsg regTools),
             tr ++ pre.map mkDispatch ++ mkDispatch tcBoom :: post.map mkDispatch)) :=
  ⟨⟨rfl, by decide, rfl⟩,
    handler_failure_reported regTools tcBoom boomTool "kaboom" rfl (by decide) rfl⟩

theorem c5_witness :
    resolveTool regTools (tcName tcNone2) = .missing
    ∧ (execMsg regTools tcNone2 =
        { role := "tool", content := .str ("Tool " ++ tcName tcNone2 ++ " not found.")
        , tool_call_id := some tcNone2.id }
      ∧ ∀ pre post ms tr,
          processCalls regTools (pre ++ tcNone2 :: post) ms tr =
            (ms ++ pre.map (execMsg regTools)
                ++ { role := "tool", content := .str ("Tool " ++ tcName tcNone2 ++ " not found.")
                   , tool_call_id := some tcNone2.id } :: post.map (execMsg regTools),
             tr ++ pre.map mkDispatch ++ mkDispatch tcNone2 :: post.map mkDispatch)) :=
  ⟨rfl, tool_not_found_reported regTools tcNone2 rfl⟩

theorem c8_witness :
    (resolveTool regTools (tcName tcMk) = .tool objTool
    ∧ objTool.handler (tcArgs tcMk) = .ok (.obj [("a", .num 1)]))
    ∧ ((∀ s, JVal.obj [("a", JVal.num 1)] = .str s → (execMsg regTools tcMk).content = .str s)
      ∧ (pureJson (.obj [("a", .num 1)]) = true →
          (∀ s, JVal.obj [("a", JVal.num 1)] ≠ .str s) →
          ∃ enc, jsonStringify (.obj [("a", .num 1)]) = some enc ∧
            (execMsg regTools tcMk).content = .str enc ∧
            jsonParse enc = some (.obj [("a", .num 1)]))) :=
  ⟨⟨rfl, rfl⟩,
    tool_result_round_trip regTools tcMk objTool (.obj [("a", .num 1)]) rfl rfl⟩

theorem c9_witness : ∃ tail, outHello.messages = seedMsgs agentOneTurn "hi" ++ tail :=
  transcript_append_only.2.2 agentOneTurn mcpNone orHello "hi" outHello rfl

theorem c10_witness :
    (agentInitMcp.apiKey ≠ "" ∧ agentInitMcp.model ≠ "" ∧ agentInitMcp.maxTurns ≤ 0
    ∧ initAgent agentInitMcp mcpOneSrv = .ok (regInit, trInit))
    ∧ (Agent.run agentInitMcp mcpOneSrv orHello "hi" =
        .ok { text := .str guardrailText, messages := seedMsgs agentInitMcp "hi"
            , trace := trInit }
      ∧ countModelCalls trInit = 0 ∧ countDispatches trInit = 0) :=
  ⟨⟨by decide, by decide, by decide, rfl⟩,
    run_nonpositive_max_turns agentInitMcp mcpOneSrv orHello "hi" regInit trInit
      (by decide) (by decide) (by decide) rfl⟩

end MiniAgent
